import Mathlib

/-!
Verification of the `EigenvectorCentralityCalculator` class (power iteration
with sign fixing and an additive bias/doping vector).

Modelling conventions for the shallow embedding:
* JavaScript `number` arithmetic is idealized as real arithmetic (`ℝ`);
  vectors are `List ℝ`, matrices `List (List ℝ)`.
* An indexed array read `b[index]` is modelled as `List.getD index 0`.
  In JavaScript an out-of-range read yields `undefined` (and `NaN` after
  arithmetic); `ℝ` has no `NaN`, so the value is defaulted to `0` and the
  reachability of out-of-range reads is tracked separately by the
  instrumented variant `powerIterOOBRec`.
* Division by a zero norm (JavaScript: `Infinity`/`NaN`) falls back to
  Lean's `x / 0 = 0` convention; the claims about the degenerate case only
  concern *reaching* a zero divisor, which is expressed as
  `vectorNorm v = 0` for the vector `v` being normalized.
* The injectable `rng` source is modelled by passing the drawn vector `r0`
  explicitly to `powerIteration`.
-/

namespace EigenvectorCentralityCalculator

/-- `a.reduce((sum, value, index) => sum + value * b[index], 0)`:
the fold of `dotProduct`, carrying the running index into `b`. -/
def dotGo (b : List ℝ) : ℕ → ℝ → List ℝ → ℝ
  | _, s, [] => s
  | i, s, v :: vs => dotGo b (i + 1) (s + v * b.getD i 0) vs

/-- Source line 2-4: `dotProduct(a, b)`. -/
def dotProduct (a b : List ℝ) : ℝ := dotGo b 0 0 a

/-- `v.reduce((sum, value) => sum + value * value, 0)` from `vectorNormalize`. -/
def sumSq : List ℝ → ℝ := List.foldl (fun s x => s + x * x) 0

/-- `const norm = Math.sqrt(v.reduce((sum, value) => sum + value * value, 0))`. -/
noncomputable def vectorNorm (v : List ℝ) : ℝ := Real.sqrt (sumSq v)

/-- Source line 6-9: `vectorNormalize(v)`, i.e. `v.map(value => value / norm)`. -/
noncomputable def vectorNormalize (v : List ℝ) : List ℝ :=
  v.map (fun value => value / vectorNorm v)

/-- Source line 11-13: `matrixVectorMultiply(matrix, vector)`. -/
def matrixVectorMultiply (matrix : List (List ℝ)) (vector : List ℝ) : List ℝ :=
  matrix.map (fun row => dotProduct row vector)

/-- `.map((value, index) => value + b[index])` from source line 28:
elementwise addition of the bias vector, by running index into `b`. -/
def addBias (b : List ℝ) : ℕ → List ℝ → List ℝ
  | _, [] => []
  | i, v :: vs => (v + b.getD i 0) :: addBias b (i + 1) vs

/-- `r_k1.map((value, index) => value - r_k[index])` from source line 37:
elementwise subtraction, by running index into the second vector. -/
def subIdx (b : List ℝ) : ℕ → List ℝ → List ℝ
  | _, [] => []
  | i, v :: vs => (v - b.getD i 0) :: subIdx b (i + 1) vs

/-- Elementwise difference `a - b` as written in the convergence check. -/
def vectorSub (a b : List ℝ) : List ℝ := subIdx b 0 a

/-- Lines 28-34 of the source, the vector handed to `vectorNormalize` in the
loop body: `y_k1.map(value => Math.sign(mu) * value)` where
`y_k1 = matrixVectorMultiply(A, r_k).map((v, i) => v + b[i])` and
`mu = dotProduct(y_k1, r_k)`. -/
noncomputable def pstepArg (A : List (List ℝ)) (b r : List ℝ) : List ℝ :=
  let y := addBias b 0 (matrixVectorMultiply A r)
  y.map (fun value => Real.sign (dotProduct y r) * value)

/-- One loop-body update: `r_k1 = vectorNormalize(y_k1.map(v => Math.sign(mu) * v))`. -/
noncomputable def pstep (A : List (List ℝ)) (b r : List ℝ) : List ℝ :=
  vectorNormalize (pstepArg A b r)

/-- The quantity compared against `tol` on source line 37:
`Math.sqrt(dotProduct(r_k1 - r_k, r_k1 - r_k))`. -/
noncomputable def pdelta (A : List (List ℝ)) (b r : List ℝ) : ℝ :=
  Real.sqrt (dotProduct (vectorSub (pstep A b r) r) (vectorSub (pstep A b r) r))

open Classical in
/-- The `for (let i = 0; i < nIter; i++)` loop of `powerIteration`
(source lines 26-42), as fuel recursion on the remaining iteration count:
if the update moves `r_k` by less than `tol` the new iterate is returned
immediately, otherwise the loop continues with `r_k = r_k1`. -/
noncomputable def powerIterRec (A : List (List ℝ)) (b : List ℝ) (tol : ℝ) :
    ℕ → List ℝ → List ℝ
  | 0, r => r
  | n + 1, r =>
    if pdelta A b r < tol then pstep A b r
    else powerIterRec A b tol n (pstep A b r)

/-- Source lines 15-47: `powerIteration(A, b, nIter, tol, rng)`, with the
random draw `rng()` passed explicitly as `r0`.  Returns the eigenvector
component of the result object. -/
noncomputable def powerIteration (A : List (List ℝ)) (b : List ℝ) (nIter : ℕ)
    (tol : ℝ) (r0 : List ℝ) : List ℝ :=
  powerIterRec A b tol nIter (vectorNormalize r0)

open Classical in
/-- Instrumented variant of the loop that counts how many times the loop body
executed before returning (the value component is `powerIterRec`). -/
noncomputable def powerIterCountRec (A : List (List ℝ)) (b : List ℝ) (tol : ℝ) :
    ℕ → List ℝ → ℕ
  | 0, _ => 0
  | n + 1, r =>
    if pdelta A b r < tol then 1
    else powerIterCountRec A b tol n (pstep A b r) + 1

/-- Number of loop iterations executed by `powerIteration`. -/
noncomputable def powerIterationSteps (A : List (List ℝ)) (b : List ℝ)
    (nIter : ℕ) (tol : ℝ) (r0 : List ℝ) : ℕ :=
  powerIterCountRec A b tol nIter (vectorNormalize r0)

open Classical in
/-- Instrumented variant of the loop that additionally records whether the
elementwise bias addition on source line 28 ever read `b` at an index that is
out of range: that map visits every index of `matrixVectorMultiply A r`,
so the indices read from `b` in one iteration are `0 .. y.length - 1`. -/
noncomputable def powerIterOOBRec (A : List (List ℝ)) (b : List ℝ) (tol : ℝ) :
    ℕ → List ℝ → Bool → List ℝ × Bool
  | 0, r, oob => (r, oob)
  | n + 1, r, oob =>
    let oob1 := oob ||
      (List.range (matrixVectorMultiply A r).length).any (fun i => decide (b.length ≤ i))
    if pdelta A b r < tol then (pstep A b r, oob1)
    else powerIterOOBRec A b tol n (pstep A b r) oob1

/-- `powerIteration` with the out-of-range instrumentation of `powerIterOOBRec`. -/
noncomputable def powerIterationOOB (A : List (List ℝ)) (b : List ℝ) (nIter : ℕ)
    (tol : ℝ) (r0 : List ℝ) : List ℝ × Bool :=
  powerIterOOBRec A b tol nIter (vectorNormalize r0) false

/-- The mutable environment visible to `powerIteration`: the caller's arrays
`A` and `b`.  `powerIteration` only ever reads them (`map`, `reduce`), so the
store-passing translation threads the state unchanged. -/
structure JSState where
  A : List (List ℝ)
  b : List ℝ

open Classical in
/-- Store-passing translation of the loop: each iteration reads `s.A` and
`s.b` from the store and returns the store with the result. -/
noncomputable def powerIterStRec (tol : ℝ) : ℕ → List ℝ → JSState → List ℝ × JSState
  | 0, r, s => (r, s)
  | n + 1, r, s =>
    if pdelta s.A s.b r < tol then (pstep s.A s.b r, s)
    else powerIterStRec tol n (pstep s.A s.b r) s

/-- Store-passing translation of `powerIteration`. -/
noncomputable def powerIterationStore (nIter : ℕ) (tol : ℝ) (r0 : List ℝ)
    (s : JSState) : List ℝ × JSState :=
  powerIterStRec tol nIter (vectorNormalize r0) s

/-- The iterate sequence of the loop (no early exit): `pseq A b r0 k` is the
value of `r_k` after `k` executed loop bodies, starting from the normalized
initial draw. -/
noncomputable def pseq (A : List (List ℝ)) (b r0 : List ℝ) (k : ℕ) : List ℝ :=
  (pstep A b)^[k] (vectorNormalize r0)

/-- Nondegeneracy of a run: along every executed iteration, the vector handed
to `vectorNormalize` has nonzero norm (so no division by zero occurs inside
the loop). -/
noncomputable def RunNondegen (A : List (List ℝ)) (b : List ℝ) (tol : ℝ) :
    ℕ → List ℝ → Prop
  | 0, _ => True
  | n + 1, r =>
    vectorNorm (pstepArg A b r) ≠ 0 ∧
      (¬ pdelta A b r < tol → RunNondegen A b tol n (pstep A b r))

/-- Negation of a vector, `v.map(x => -x)`. -/
def negList (v : List ℝ) : List ℝ := v.map (fun x => -x)

/-- The all-zero vector of length `n`. -/
def zerosVec (n : ℕ) : List ℝ := List.replicate n 0

/-- The `n × n` all-zero matrix. -/
def zeroMatrix (n : ℕ) : List (List ℝ) := List.replicate n (zerosVec n)

/-- A matrix given as nested lists is symmetric (reads out of range default to
`0` on both sides). -/
def matSymm (A : List (List ℝ)) : Prop :=
  ∀ i j, (A.getD i []).getD j 0 = (A.getD j []).getD i 0

/-- A matrix given as nested lists has non-negative entries. -/
def matNonneg (A : List (List ℝ)) : Prop :=
  ∀ i j, 0 ≤ (A.getD i []).getD j 0

/-- A matrix given as nested lists is square. -/
def matSquare (A : List (List ℝ)) : Prop :=
  ∀ row ∈ A, row.length = A.length

/-- The two-node adjacency matrix of spec Scenario B. -/
def twoNodeA : List (List ℝ) := [[0, 1], [1, 0]]

/-- The five-node star adjacency matrix of spec Scenarios C/D
(center node `0` joined to nodes `1..4` with weight `1`). -/
def starA : List (List ℝ) :=
  [[0, 1, 1, 1, 1], [1, 0, 0, 0, 0], [1, 0, 0, 0, 0], [1, 0, 0, 0, 0], [1, 0, 0, 0, 0]]

/-- The doping vector `b = [1,0,0,0,0]` of spec Scenario D. -/
def bDope : List ℝ := [1, 0, 0, 0, 0]

/-- The zero bias vector of length 5. -/
def bZero5 : List ℝ := [0, 0, 0, 0, 0]

/-- The property claimed in Scenario B for the returned vector: each entry is
within tolerance `0.05` of `1/√2`, up to a global sign. -/
noncomputable def nearDiagUpToSign (v : List ℝ) : Prop :=
  (|v.getD 0 0 - 1 / Real.sqrt 2| ≤ 0.05 ∧ |v.getD 1 0 - 1 / Real.sqrt 2| ≤ 0.05) ∨
    (|v.getD 0 0 + 1 / Real.sqrt 2| ≤ 0.05 ∧ |v.getD 1 0 + 1 / Real.sqrt 2| ≤ 0.05)

end EigenvectorCentralityCalculator

namespace EigenvectorCentralityCalculator

/-! ### Basic lemmas about the loop -/

theorem powerIterRec_zero (A : List (List ℝ)) (b : List ℝ) (tol : ℝ) (r : List ℝ) :
    powerIterRec A b tol 0 r = r := rfl

theorem powerIterRec_succ_pos (A : List (List ℝ)) (b : List ℝ) (tol : ℝ) (n : ℕ)
    (r : List ℝ) (h : pdelta A b r < tol) :
    powerIterRec A b tol (n + 1) r = pstep A b r := by
  simp [powerIterRec, h]

theorem powerIterRec_succ_neg (A : List (List ℝ)) (b : List ℝ) (tol : ℝ) (n : ℕ)
    (r : List ℝ) (h : ¬ pdelta A b r < tol) :
    powerIterRec A b tol (n + 1) r = powerIterRec A b tol n (pstep A b r) := by
  simp [powerIterRec, h]

theorem powerIterCountRec_succ_pos (A : List (List ℝ)) (b : List ℝ) (tol : ℝ) (n : ℕ)
    (r : List ℝ) (h : pdelta A b r < tol) :
    powerIterCountRec A b tol (n + 1) r = 1 := by
  simp [powerIterCountRec, h]

theorem powerIterCountRec_succ_neg (A : List (List ℝ)) (b : List ℝ) (tol : ℝ) (n : ℕ)
    (r : List ℝ) (h : ¬ pdelta A b r < tol) :
    powerIterCountRec A b tol (n + 1) r = powerIterCountRec A b tol n (pstep A b r) + 1 := by
  simp [powerIterCountRec, h]

/-- Claim C5: with `maxIterations = 0` the loop body never executes and
`powerIteration` returns the initial random draw, normalized and unchanged. -/
theorem powerIteration_zero_iters (A : List (List ℝ)) (b : List ℝ) (tol : ℝ)
    (r0 : List ℝ) : powerIteration A b 0 tol r0 = vectorNormalize r0 := rfl

/-- Amended claim C3: with `tolerance = 0` the convergence test
`Math.sqrt(dotProduct(d, d)) < 0` never succeeds (a square root is
non-negative), so the loop always runs the full `maxIterations` count —
even when the per-step delta is exactly the zero vector. -/
theorem tol_zero_runs_full (A : List (List ℝ)) (b : List ℝ) (n : ℕ) (r0 : List ℝ) :
    powerIterationSteps A b n 0 r0 = n := by
  have key : ∀ m r, powerIterCountRec A b (0 : ℝ) m r = m := by
    intro m
    induction m with
    | zero => intro r; rfl
    | succ k ih =>
      intro r
      have hno : ¬ pdelta A b r < (0 : ℝ) :=
        not_lt.mpr (Real.sqrt_nonneg _)
      rw [powerIterCountRec_succ_neg A b 0 k r hno, ih]
  exact key n (vectorNormalize r0)

/-- Claim C8: the store-passing translation of `powerIteration` returns the
caller's `A` and `b` unchanged, and its value component agrees with the pure
function of the stored values — the routine only reads its inputs. -/
theorem powerIteration_preserves_store (n : ℕ) (tol : ℝ) (r0 : List ℝ) (s : JSState) :
    (powerIterationStore n tol r0 s).2 = s ∧
      (powerIterationStore n tol r0 s).1 = powerIteration s.A s.b n tol r0 := by
  have key : ∀ m r, (powerIterStRec tol m r s).2 = s ∧
      (powerIterStRec tol m r s).1 = powerIterRec s.A s.b tol m r := by
    intro m
    induction m with
    | zero => intro r; exact ⟨rfl, rfl⟩
    | succ k ih =>
      intro r
      by_cases h : pdelta s.A s.b r < tol
      · constructor
        · simp [powerIterStRec, h]
        · simp [powerIterStRec, powerIterRec, h]
      · constructor
        · simp only [powerIterStRec, if_neg h]
          exact (ih (pstep s.A s.b r)).1
        · simp only [powerIterStRec, if_neg h, powerIterRec]
          exact (ih (pstep s.A s.b r)).2
  exact key n (vectorNormalize r0)

/-! ### Arithmetic toolkit for the fold-based vector operations -/

theorem dotGo_acc (b : List ℝ) : ∀ (a : List ℝ) (i : ℕ) (s : ℝ),
    dotGo b i s a = s + dotGo b i 0 a := by
  intro a
  induction a with
  | nil => intro i s; simp [dotGo]
  | cons v vs ih =>
    intro i s
    rw [dotGo, dotGo, ih (i + 1) (s + v * b.getD i 0), ih (i + 1) (0 + v * b.getD i 0)]
    ring

theorem dotGo_cons (b : List ℝ) (i : ℕ) (s : ℝ) (v : ℝ) (vs : List ℝ) :
    dotGo b i s (v :: vs) = dotGo b (i + 1) (s + v * b.getD i 0) vs := rfl

theorem sumSq_acc : ∀ (v : List ℝ) (c : ℝ),
    List.foldl (fun s x => s + x * x) c v = c + sumSq v := by
  intro v
  induction v with
  | nil => intro c; simp [sumSq]
  | cons x xs ih =>
    intro c
    have hx : sumSq (x :: xs) = (0 + x * x) + sumSq xs := by
      show List.foldl (fun s x => s + x * x) 0 (x :: xs) = (0 + x * x) + sumSq xs
      rw [List.foldl_cons, ih (0 + x * x)]
    rw [List.foldl_cons, ih (c + x * x), hx]
    ring

theorem sumSq_cons (x : ℝ) (xs : List ℝ) : sumSq (x :: xs) = x * x + sumSq xs := by
  show List.foldl (fun s x => s + x * x) 0 (x :: xs) = x * x + sumSq xs
  rw [List.foldl_cons, sumSq_acc]
  ring

theorem sumSq_nil : sumSq [] = 0 := rfl

theorem sumSq_nonneg (v : List ℝ) : 0 ≤ sumSq v := by
  induction v with
  | nil => simp [sumSq]
  | cons x xs ih =>
    rw [sumSq_cons]
    nlinarith [mul_self_nonneg x]

theorem sumSq_map_div (v : List ℝ) (c : ℝ) :
    sumSq (v.map (fun x => x / c)) = sumSq v / c ^ 2 := by
  induction v with
  | nil => simp [sumSq]
  | cons x xs ih =>
    rw [List.map_cons, sumSq_cons, sumSq_cons, ih]
    field_simp
    ring

theorem vectorNorm_nonneg (v : List ℝ) : 0 ≤ vectorNorm v := Real.sqrt_nonneg _

/-- A vector of nonzero norm is normalized to a unit vector. -/
theorem vectorNorm_normalize (v : List ℝ) (h : vectorNorm v ≠ 0) :
    vectorNorm (vectorNormalize v) = 1 := by
  have hpos : 0 < sumSq v := by
    rcases lt_or_eq_of_le (sumSq_nonneg v) with hlt | heq
    · exact hlt
    · exact absurd (by rw [vectorNorm, ← heq, Real.sqrt_zero]) h
  have hs : 0 < vectorNorm v := Real.sqrt_pos.mpr hpos
  rw [vectorNorm, vectorNormalize, sumSq_map_div, vectorNorm, Real.sq_sqrt hpos.le]
  rw [div_self hpos.ne.symm, Real.sqrt_one]

theorem getD_replicate_zero : ∀ (n i : ℕ), (List.replicate n (0 : ℝ)).getD i 0 = 0 := by
  intro n
  induction n with
  | zero => intro i; simp [List.getD]
  | succ m ih =>
    intro i
    cases i with
    | zero => simp [List.replicate]
    | succ j => simp only [List.replicate, List.getD_cons_succ]; exact ih j

theorem getD_zerosVec (n i : ℕ) : (zerosVec n).getD i 0 = 0 := getD_replicate_zero n i

theorem getD_negList (b : List ℝ) : ∀ i : ℕ, (negList b).getD i 0 = -(b.getD i 0) := by
  induction b with
  | nil => intro i; simp [negList, List.getD]
  | cons x xs ih =>
    intro i
    cases i with
    | zero => simp [negList]
    | succ j => simpa [negList] using ih j

/-- Adding a bias vector all of whose reads give `0` is the identity. -/
theorem addBias_of_zero (b : List ℝ) (hb : ∀ j, b.getD j 0 = 0) :
    ∀ (v : List ℝ) (i : ℕ), addBias b i v = v := by
  intro v
  induction v with
  | nil => intro i; rfl
  | cons x xs ih =>
    intro i
    rw [addBias, hb i, add_zero, ih (i + 1)]

theorem dotGo_replicate_zero (b : List ℝ) :
    ∀ (n : ℕ) (i : ℕ) (s : ℝ), dotGo b i s (List.replicate n 0) = s := by
  intro n
  induction n with
  | zero => intro i s; rfl
  | succ m ih =>
    intro i s
    rw [List.replicate, dotGo_cons, zero_mul, add_zero]
    exact ih (i + 1) s

theorem sumSq_replicate_zero : ∀ n : ℕ, sumSq (List.replicate n (0 : ℝ)) = 0 := by
  intro n
  induction n with
  | zero => rfl
  | succ m ih => rw [List.replicate, sumSq_cons, ih]; ring

/-! ### Claim C9: out-of-range bias read -/

/-- Claim C9: for an input whose bias vector `b` is shorter than the matrix
dimension (here `A` is `2 × 2` and `b = [0]` has length 1) and at least one
iteration, the elementwise bias addition of the loop body reads `b` out of
range: the instrumented run reports an out-of-range read. -/
theorem bias_oob_read_reachable :
    (powerIterationOOB [[0, 1], [1, 0]] [0] 1 0.01 [3, 4]).2 = true := by
  have hlen : (matrixVectorMultiply [[0, 1], [1, 0]] (vectorNormalize [3, 4])).length = 2 := by
    simp [matrixVectorMultiply]
  show (powerIterOOBRec [[0, 1], [1, 0]] [0] 0.01 (0 + 1) (vectorNormalize [3, 4]) false).2 = true
  simp only [powerIterOOBRec, hlen]
  have hany : (List.range 2).any (fun i => decide ((List.length [(0 : ℝ)]) ≤ i)) = true := by
    decide
  rw [hany]
  simp only [Bool.or_true, Bool.false_or]
  split
  · rfl
  · rfl

/-! ### Claim C4: early exit versus exhaustion -/

theorem loop_char (A : List (List ℝ)) (b : List ℝ) (tol : ℝ) : ∀ (n : ℕ) (r : List ℝ),
    (∃ k, k < n ∧ (∀ j, j < k → ¬ pdelta A b ((pstep A b)^[j] r) < tol) ∧
      pdelta A b ((pstep A b)^[k] r) < tol ∧
      powerIterRec A b tol n r = (pstep A b)^[k + 1] r ∧
      powerIterCountRec A b tol n r = k + 1) ∨
    ((∀ j, j < n → ¬ pdelta A b ((pstep A b)^[j] r) < tol) ∧
      powerIterRec A b tol n r = (pstep A b)^[n] r ∧
      powerIterCountRec A b tol n r = n) := by
  intro n
  induction n with
  | zero =>
    intro r
    exact Or.inr ⟨fun j hj => absurd hj (Nat.not_lt_zero j), rfl, rfl⟩
  | succ m ih =>
    intro r
    by_cases h : pdelta A b r < tol
    · refine Or.inl ⟨0, Nat.succ_pos m, ?_, ?_, ?_, ?_⟩
      · intro j hj; exact absurd hj (Nat.not_lt_zero j)
      · simpa using h
      · rw [powerIterRec_succ_pos A b tol m r h]; simp
      · rw [powerIterCountRec_succ_pos A b tol m r h]
    · rcases ih (pstep A b r) with ⟨k, hk, hmin, hc, hres, hcnt⟩ | ⟨hall, hres, hcnt⟩
      · refine Or.inl ⟨k + 1, Nat.succ_lt_succ hk, ?_, ?_, ?_, ?_⟩
        · intro j hj
          cases j with
          | zero => simpa using h
          | succ i =>
            rw [Function.iterate_succ_apply]
            exact hmin i (Nat.lt_of_succ_lt_succ hj)
        · rw [Function.iterate_succ_apply]; exact hc
        · rw [powerIterRec_succ_neg A b tol m r h, hres]
          exact (Function.iterate_succ_apply (pstep A b) (k + 1) r).symm
        · rw [powerIterCountRec_succ_neg A b tol m r h, hcnt]
      · refine Or.inr ⟨?_, ?_, ?_⟩
        · intro j hj
          cases j with
          | zero => simpa using h
          | succ i =>
            rw [Function.iterate_succ_apply]
            exact hall i (Nat.lt_of_succ_lt_succ hj)
        · rw [powerIterRec_succ_neg A b tol m r h, hres]
          exact (Function.iterate_succ_apply (pstep A b) m r).symm
        · rw [powerIterCountRec_succ_neg A b tol m r h, hcnt]

/-- Claim C4: either some iteration `k` is the first whose update moves the
iterate by (strictly) less than `tolerance` — then the loop stops right there
and returns `r_{k+1}`, having executed exactly `k+1` iterations — or no
iteration meets the condition and after exactly `maxIterations` iterations
the last computed iterate is returned.  The return value is the bare vector
in both cases, so callers cannot tell the two cases apart. -/
theorem powerIteration_early_exit_or_exhaust (A : List (List ℝ)) (b : List ℝ)
    (n : ℕ) (tol : ℝ) (r0 : List ℝ) :
    (∃ k, k < n ∧ (∀ j, j < k → ¬ pdelta A b (pseq A b r0 j) < tol) ∧
      pdelta A b (pseq A b r0 k) < tol ∧
      powerIteration A b n tol r0 = pseq A b r0 (k + 1) ∧
      powerIterationSteps A b n tol r0 = k + 1) ∨
    ((∀ j, j < n → ¬ pdelta A b (pseq A b r0 j) < tol) ∧
      powerIteration A b n tol r0 = pseq A b r0 n ∧
      powerIterationSteps A b n tol r0 = n) :=
  loop_char A b tol n (vectorNormalize r0)

/-! ### Claim C10: oddness in the initial draw when the bias is zero -/

theorem dotProduct_neg_right (b : List ℝ) : ∀ (a : List ℝ) (i : ℕ),
    dotGo (negList b) i 0 a = -dotGo b i 0 a := by
  intro a
  induction a with
  | nil => intro i; simp [dotGo]
  | cons v vs ih =>
    intro i
    rw [dotGo_cons, dotGo_cons, dotGo_acc _ vs, dotGo_acc b vs, ih (i + 1), getD_negList]
    ring

theorem dotProduct_neg_left (b : List ℝ) : ∀ (a : List ℝ) (i : ℕ),
    dotGo b i 0 (negList a) = -dotGo b i 0 a := by
  intro a
  induction a with
  | nil => intro i; simp [dotGo, negList]
  | cons v vs ih =>
    intro i
    show dotGo b i 0 ((-v) :: negList vs) = -dotGo b i 0 (v :: vs)
    rw [dotGo_cons, dotGo_cons, dotGo_acc _ (negList vs), dotGo_acc b vs, ih (i + 1)]
    ring

theorem sumSq_negList (v : List ℝ) : sumSq (negList v) = sumSq v := by
  induction v with
  | nil => rfl
  | cons x xs ih =>
    show sumSq ((-x) :: negList xs) = sumSq (x :: xs)
    rw [sumSq_cons, sumSq_cons, ih]
    ring

theorem vectorNorm_negList (v : List ℝ) : vectorNorm (negList v) = vectorNorm v := by
  rw [vectorNorm, vectorNorm, sumSq_negList]

theorem vectorNormalize_negList (v : List ℝ) :
    vectorNormalize (negList v) = negList (vectorNormalize v) := by
  rw [vectorNormalize, vectorNormalize, vectorNorm_negList]
  simp [negList, List.map_map, Function.comp_def, neg_div]

theorem mvMul_negList (A : List (List ℝ)) (r : List ℝ) :
    matrixVectorMultiply A (negList r) = negList (matrixVectorMultiply A r) := by
  simp only [matrixVectorMultiply, negList, List.map_map, Function.comp_def]
  exact List.map_congr_left fun row _ => dotProduct_neg_right r row 0

theorem subIdx_negList (rb : List ℝ) : ∀ (ra : List ℝ) (i : ℕ),
    subIdx (negList rb) i (negList ra) = negList (subIdx rb i ra) := by
  intro ra
  induction ra with
  | nil => intro i; rfl
  | cons v vs ih =>
    intro i
    show subIdx (negList rb) i ((-v) :: negList vs) = negList ((v - rb.getD i 0) :: subIdx rb (i + 1) vs)
    rw [subIdx, getD_negList]
    show (-v - -(rb.getD i 0)) :: subIdx (negList rb) (i + 1) (negList vs) = _
    rw [ih (i + 1)]
    show _ = (-(v - rb.getD i 0)) :: negList (subIdx rb (i + 1) vs)
    congr 1
    ring

theorem pstepArg_neg (A : List (List ℝ)) (m : ℕ) (r : List ℝ) :
    pstepArg A (zerosVec m) (negList r) = negList (pstepArg A (zerosVec m) r) := by
  have hzb : ∀ j, (zerosVec m).getD j 0 = 0 := getD_zerosVec m
  rw [pstepArg, pstepArg]
  rw [addBias_of_zero _ hzb _ 0, addBias_of_zero _ hzb _ 0, mvMul_negList]
  have hmu : dotProduct (negList (matrixVectorMultiply A r)) (negList r) =
      dotProduct (matrixVectorMultiply A r) r := by
    rw [dotProduct, dotProduct]
    show dotGo (negList r) 0 0 (negList (matrixVectorMultiply A r)) = _
    rw [dotProduct_neg_left (negList r) (matrixVectorMultiply A r) 0,
      dotProduct_neg_right r (matrixVectorMultiply A r) 0]
    ring
  rw [hmu]
  simp [negList, List.map_map, Function.comp_def, mul_neg]

theorem pstep_neg (A : List (List ℝ)) (m : ℕ) (r : List ℝ) :
    pstep A (zerosVec m) (negList r) = negList (pstep A (zerosVec m) r) := by
  rw [pstep, pstep, pstepArg_neg, vectorNormalize_negList]

theorem pdelta_neg (A : List (List ℝ)) (m : ℕ) (r : List ℝ) :
    pdelta A (zerosVec m) (negList r) = pdelta A (zerosVec m) r := by
  rw [pdelta, pdelta, pstep_neg]
  have hsub : vectorSub (negList (pstep A (zerosVec m) r)) (negList r) =
      negList (vectorSub (pstep A (zerosVec m) r) r) := by
    rw [vectorSub, vectorSub]
    exact subIdx_negList r (pstep A (zerosVec m) r) 0
  rw [hsub]
  congr 1
  rw [dotProduct, dotProduct]
  rw [dotProduct_neg_left (negList (vectorSub (pstep A (zerosVec m) r) r)) _ 0,
    dotProduct_neg_right _ _ 0]
  ring

/-- Claim C10: with a zero bias vector the loop-body update is odd — one step
applied to `-r` is exactly the negation of one step applied to `r` — and two
whole runs started from negated draws execute the same number of iterations
and return exactly negated eigenvectors. -/
theorem powerIteration_neg_draw (A : List (List ℝ)) (m n : ℕ) (tol : ℝ) (r0 : List ℝ) :
    (∀ r, pstep A (zerosVec m) (negList r) = negList (pstep A (zerosVec m) r)) ∧
    powerIteration A (zerosVec m) n tol (negList r0) =
      negList (powerIteration A (zerosVec m) n tol r0) ∧
    powerIterationSteps A (zerosVec m) n tol (negList r0) =
      powerIterationSteps A (zerosVec m) n tol r0 := by
  have key : ∀ (k : ℕ) (r : List ℝ),
      powerIterRec A (zerosVec m) tol k (negList r) =
        negList (powerIterRec A (zerosVec m) tol k r) ∧
      powerIterCountRec A (zerosVec m) tol k (negList r) =
        powerIterCountRec A (zerosVec m) tol k r := by
    intro k
    induction k with
    | zero => intro r; exact ⟨rfl, rfl⟩
    | succ j ih =>
      intro r
      by_cases h : pdelta A (zerosVec m) r < tol
      · have hneg : pdelta A (zerosVec m) (negList r) < tol := by
          rw [pdelta_neg]; exact h
        constructor
        · rw [powerIterRec_succ_pos _ _ _ _ _ hneg, powerIterRec_succ_pos _ _ _ _ _ h,
            pstep_neg]
        · rw [powerIterCountRec_succ_pos _ _ _ _ _ hneg,
            powerIterCountRec_succ_pos _ _ _ _ _ h]
      · have hneg : ¬ pdelta A (zerosVec m) (negList r) < tol := by
          rw [pdelta_neg]; exact h
        constructor
        · rw [powerIterRec_succ_neg _ _ _ _ _ hneg, powerIterRec_succ_neg _ _ _ _ _ h,
            pstep_neg]
          exact (ih (pstep A (zerosVec m) r)).1
        · rw [powerIterCountRec_succ_neg _ _ _ _ _ hneg,
            powerIterCountRec_succ_neg _ _ _ _ _ h, pstep_neg]
          rw [(ih (pstep A (zerosVec m) r)).2]
  refine ⟨fun r => pstep_neg A m r, ?_, ?_⟩
  · rw [powerIteration, powerIteration, vectorNormalize_negList]
    exact (key n (vectorNormalize r0)).1
  · rw [powerIterationSteps, powerIterationSteps, vectorNormalize_negList]
    exact (key n (vectorNormalize r0)).2

/-! ### Claim C6: the all-zero matrix with zero bias -/

/-- Claim C6: for every `N ≥ 1`, with the `N × N` all-zero matrix and the zero
bias vector, the vector handed to `vectorNormalize` by the loop body is the
zero vector whatever the current iterate is — so every executed iteration
normalizes a zero vector, whose computed norm (the divisor) is `0`. -/
theorem zero_matrix_zero_bias_degenerate (N : ℕ) (hN : 1 ≤ N) (r : List ℝ) :
    pstepArg (zeroMatrix N) (zerosVec N) r = zerosVec N ∧
    vectorNorm (pstepArg (zeroMatrix N) (zerosVec N) r) = 0 := by
  have hmv : matrixVectorMultiply (zeroMatrix N) r = List.replicate N 0 := by
    rw [zeroMatrix, matrixVectorMultiply, List.map_replicate]
    congr 1
    exact dotGo_replicate_zero r N 0 0
  have harg : pstepArg (zeroMatrix N) (zerosVec N) r = zerosVec N := by
    rw [pstepArg]
    simp only [hmv, addBias_of_zero (zerosVec N) (getD_zerosVec N) _ 0]
    rw [List.map_replicate, mul_zero]
    rfl
  refine ⟨harg, ?_⟩
  rw [harg]
  rw [vectorNorm, zerosVec, sumSq_replicate_zero, Real.sqrt_zero]

/-- Witness for C6 at `N = 1` and the empty iterate. -/
theorem zero_matrix_zero_bias_degenerate_witness :
    1 ≤ 1 ∧
      (pstepArg (zeroMatrix 1) (zerosVec 1) [] = zerosVec 1 ∧
        vectorNorm (pstepArg (zeroMatrix 1) (zerosVec 1) []) = 0) :=
  ⟨le_refl 1, zero_matrix_zero_bias_degenerate 1 (le_refl 1) []⟩

/-! ### Claim C2: unit norm of the returned vector -/

theorem RunNondegen_succ (A : List (List ℝ)) (b : List ℝ) (tol : ℝ) (n : ℕ) (r : List ℝ) :
    RunNondegen A b tol (n + 1) r ↔
      vectorNorm (pstepArg A b r) ≠ 0 ∧
        (¬ pdelta A b r < tol → RunNondegen A b tol n (pstep A b r)) := Iff.rfl

/-- Claim C2: for a square symmetric non-negative matrix of dimension `N ≥ 1`
and a bias vector of length `N`, if the initial draw is nonzero and the run is
nondegenerate (no vector handed to `vectorNormalize` inside the loop has zero
norm), the vector returned by `powerIteration` has unit Euclidean norm. -/
theorem powerIteration_unit_norm (A : List (List ℝ)) (b : List ℝ) (n : ℕ) (tol : ℝ)
    (r0 : List ℝ) (hsq : matSquare A) (hsym : matSymm A) (hnn : matNonneg A)
    (hN : 1 ≤ A.length) (hb : b.length = A.length) (h0 : vectorNorm r0 ≠ 0)
    (hnd : RunNondegen A b tol n (vectorNormalize r0)) :
    vectorNorm (powerIteration A b n tol r0) = 1 := by
  have key : ∀ (m : ℕ) (r : List ℝ), vectorNorm r = 1 → RunNondegen A b tol m r →
      vectorNorm (powerIterRec A b tol m r) = 1 := by
    intro m
    induction m with
    | zero => intro r h1 _; exact h1
    | succ k ih =>
      intro r h1 hr
      rcases (RunNondegen_succ A b tol k r).mp hr with ⟨harg, hrest⟩
      by_cases h : pdelta A b r < tol
      · rw [powerIterRec_succ_pos A b tol k r h]
        exact vectorNorm_normalize _ harg
      · rw [powerIterRec_succ_neg A b tol k r h]
        exact ih (pstep A b r) (vectorNorm_normalize _ harg) (hrest h)
  exact key n (vectorNormalize r0) (vectorNorm_normalize r0 h0) hnd

/-- Witness for C2: the two-node matrix, zero bias, zero iterations, and the
nonzero draw `[3, 4]`, whose normalization `[3/5, 4/5]` has unit norm. -/
theorem powerIteration_unit_norm_witness :
    matSquare twoNodeA ∧ matSymm twoNodeA ∧ matNonneg twoNodeA ∧
      1 ≤ twoNodeA.length ∧ List.length [(0 : ℝ), 0] = twoNodeA.length ∧
      vectorNorm [(3 : ℝ), 4] ≠ 0 ∧
      RunNondegen twoNodeA [0, 0] 0.01 0 (vectorNormalize [3, 4]) ∧
      vectorNorm (powerIteration twoNodeA [0, 0] 0 0.01 [3, 4]) = 1 := by
  have hsq : matSquare twoNodeA := by
    intro row hrow
    simp only [twoNodeA, List.mem_cons, List.not_mem_nil, or_false] at hrow
    rcases hrow with rfl | rfl
    · rfl
    · rfl
  have hsym : matSymm twoNodeA := by
    intro i j
    rcases i with _ | _ | i <;> rcases j with _ | _ | j <;>
      simp [twoNodeA, List.getD, List.get?]
  have hnn : matNonneg twoNodeA := by
    intro i j
    rcases i with _ | _ | i <;> rcases j with _ | _ | j <;>
      simp [twoNodeA, List.getD, List.get?] <;> norm_num
  have hN : 1 ≤ twoNodeA.length := by rw [twoNodeA]; norm_num
  have hb : List.length [(0 : ℝ), 0] = twoNodeA.length := rfl
  have h0 : vectorNorm [(3 : ℝ), 4] ≠ 0 := by
    have h25 : sumSq [(3 : ℝ), 4] = 25 := by
      rw [sumSq_cons, sumSq_cons, sumSq_nil]; norm_num
    rw [vectorNorm, h25]
    exact ne_of_gt (Real.sqrt_pos.mpr (by norm_num))
  have hnd : RunNondegen twoNodeA [0, 0] 0.01 0 (vectorNormalize [3, 4]) := trivial
  exact ⟨hsq, hsym, hnn, hN, hb, h0, hnd,
    powerIteration_unit_norm twoNodeA [0, 0] 0 0.01 [3, 4] hsq hsym hnn hN hb h0 hnd⟩

/-! ### Concrete evaluation lemmas for 2- and 5-element vectors -/

theorem pstepArg_eq (A : List (List ℝ)) (b r : List ℝ) :
    pstepArg A b r = (addBias b 0 (matrixVectorMultiply A r)).map
      (fun value =>
        Real.sign (dotProduct (addBias b 0 (matrixVectorMultiply A r)) r) * value) := rfl

theorem dotProduct_pair (a0 a1 b0 b1 : ℝ) :
    dotProduct [a0, a1] [b0, b1] = a0 * b0 + a1 * b1 := by
  show ((0 : ℝ) + a0 * b0) + a1 * b1 = a0 * b0 + a1 * b1
  ring

theorem dotProduct_five (a0 a1 a2 a3 a4 b0 b1 b2 b3 b4 : ℝ) :
    dotProduct [a0, a1, a2, a3, a4] [b0, b1, b2, b3, b4] =
      a0 * b0 + a1 * b1 + a2 * b2 + a3 * b3 + a4 * b4 := by
  show (((((0 : ℝ) + a0 * b0) + a1 * b1) + a2 * b2) + a3 * b3) + a4 * b4 = _
  ring

theorem sumSq_pair (a0 a1 : ℝ) : sumSq [a0, a1] = a0 * a0 + a1 * a1 := by
  rw [sumSq_cons, sumSq_cons, sumSq_nil]; ring

theorem sumSq_five (a0 a1 a2 a3 a4 : ℝ) :
    sumSq [a0, a1, a2, a3, a4] = a0 * a0 + a1 * a1 + a2 * a2 + a3 * a3 + a4 * a4 := by
  rw [sumSq_cons, sumSq_cons, sumSq_cons, sumSq_cons, sumSq_cons, sumSq_nil]; ring

theorem addBias_pair (b0 b1 a0 a1 : ℝ) :
    addBias [b0, b1] 0 [a0, a1] = [a0 + b0, a1 + b1] := rfl

theorem addBias_five (b0 b1 b2 b3 b4 a0 a1 a2 a3 a4 : ℝ) :
    addBias [b0, b1, b2, b3, b4] 0 [a0, a1, a2, a3, a4] =
      [a0 + b0, a1 + b1, a2 + b2, a3 + b3, a4 + b4] := rfl

theorem vectorSub_pair (a0 a1 b0 b1 : ℝ) :
    vectorSub [a0, a1] [b0, b1] = [a0 - b0, a1 - b1] := rfl

theorem vectorSub_five (a0 a1 a2 a3 a4 b0 b1 b2 b3 b4 : ℝ) :
    vectorSub [a0, a1, a2, a3, a4] [b0, b1, b2, b3, b4] =
      [a0 - b0, a1 - b1, a2 - b2, a3 - b3, a4 - b4] := rfl

theorem mvMul_pair (p q u w x y : ℝ) :
    matrixVectorMultiply [[p, q], [u, w]] [x, y] = [p * x + q * y, u * x + w * y] := by
  show [dotProduct [p, q] [x, y], dotProduct [u, w] [x, y]] = _
  rw [dotProduct_pair, dotProduct_pair]

theorem mvMul_star (v0 v1 v2 v3 v4 : ℝ) :
    matrixVectorMultiply starA [v0, v1, v2, v3, v4] = [v1 + v2 + v3 + v4, v0, v0, v0, v0] := by
  show [dotProduct [0, 1, 1, 1, 1] [v0, v1, v2, v3, v4],
    dotProduct [1, 0, 0, 0, 0] [v0, v1, v2, v3, v4],
    dotProduct [1, 0, 0, 0, 0] [v0, v1, v2, v3, v4],
    dotProduct [1, 0, 0, 0, 0] [v0, v1, v2, v3, v4],
    dotProduct [1, 0, 0, 0, 0] [v0, v1, v2, v3, v4]] = _
  simp only [dotProduct_five]
  norm_num

theorem vectorNormalize_pair (a0 a1 : ℝ) :
    vectorNormalize [a0, a1] =
      [a0 / Real.sqrt (a0 * a0 + a1 * a1), a1 / Real.sqrt (a0 * a0 + a1 * a1)] := by
  rw [vectorNormalize, vectorNorm, sumSq_pair]
  rfl

theorem vectorNormalize_five (a0 a1 a2 a3 a4 : ℝ) :
    vectorNormalize [a0, a1, a2, a3, a4] =
      [a0 / Real.sqrt (a0 * a0 + a1 * a1 + a2 * a2 + a3 * a3 + a4 * a4),
       a1 / Real.sqrt (a0 * a0 + a1 * a1 + a2 * a2 + a3 * a3 + a4 * a4),
       a2 / Real.sqrt (a0 * a0 + a1 * a1 + a2 * a2 + a3 * a3 + a4 * a4),
       a3 / Real.sqrt (a0 * a0 + a1 * a1 + a2 * a2 + a3 * a3 + a4 * a4),
       a4 / Real.sqrt (a0 * a0 + a1 * a1 + a2 * a2 + a3 * a3 + a4 * a4)] := by
  rw [vectorNormalize, vectorNorm, sumSq_five]
  rfl

/-! ### Claim C3: counterexample — an exactly-zero delta does not stop the loop -/

theorem normalize_one_zero : vectorNormalize [(1 : ℝ), 0] = [1, 0] := by
  rw [vectorNormalize_pair, show (1 : ℝ) * 1 + 0 * 0 = 1 by norm_num, Real.sqrt_one]
  norm_num

theorem fixed_point_step : pstep [[(1 : ℝ), 0], [0, 0]] [0, 0] [1, 0] = [1, 0] := by
  have hmv : matrixVectorMultiply [[(1 : ℝ), 0], [0, 0]] [1, 0] = [1, 0] := by
    rw [mvMul_pair]; norm_num
  have hab : addBias [(0 : ℝ), 0] 0 [1, 0] = [1, 0] := by
    rw [addBias_pair]; norm_num
  have hmu : dotProduct [(1 : ℝ), 0] [1, 0] = 1 := by
    rw [dotProduct_pair]; norm_num
  rw [pstep, pstepArg_eq, hmv, hab, hmu, Real.sign_of_pos (by norm_num : (0 : ℝ) < 1)]
  have hmap : List.map (fun value => (1 : ℝ) * value) [1, 0] = [1, 0] := by norm_num
  rw [hmap, normalize_one_zero]

theorem fixed_point_delta : pdelta [[(1 : ℝ), 0], [0, 0]] [0, 0] [1, 0] = 0 := by
  rw [pdelta, fixed_point_step, vectorSub_pair,
    show (1 : ℝ) - 1 = 0 by norm_num, show (0 : ℝ) - 0 = 0 by norm_num,
    dotProduct_pair, show (0 : ℝ) * 0 + 0 * 0 = 0 by norm_num, Real.sqrt_zero]

/-- Counterexample to claim C3: for `A = [[1,0],[0,0]]`, `b = [0,0]`,
`tolerance = 0` and initial draw `[1,0]`, the per-step delta at the very first
iteration is exactly the zero vector (its norm is `0`), yet the loop does not
stop there: with `maxIterations = 2` it still executes both iterations
(because the exit test is the strict comparison `0 < 0`, which fails), and
returns the unchanged iterate. -/
theorem tol_zero_zero_delta_no_early_exit :
    pdelta [[(1 : ℝ), 0], [0, 0]] [0, 0] (vectorNormalize [1, 0]) = 0 ∧
    powerIterationSteps [[(1 : ℝ), 0], [0, 0]] [0, 0] 2 0 [1, 0] = 2 ∧
    powerIteration [[(1 : ℝ), 0], [0, 0]] [0, 0] 2 0 [1, 0] = [1, 0] := by
  have hno : ¬ pdelta [[(1 : ℝ), 0], [0, 0]] [0, 0] [1, 0] < (0 : ℝ) := by
    rw [fixed_point_delta]; exact lt_irrefl 0
  refine ⟨by rw [normalize_one_zero, fixed_point_delta], ?_, ?_⟩
  · show powerIterCountRec [[(1 : ℝ), 0], [0, 0]] [0, 0] 0 (1 + 1) (vectorNormalize [1, 0]) = 2
    rw [normalize_one_zero, powerIterCountRec_succ_neg _ _ _ _ _ hno, fixed_point_step]
    show powerIterCountRec [[(1 : ℝ), 0], [0, 0]] [0, 0] 0 (0 + 1) [1, 0] + 1 = 2
    rw [powerIterCountRec_succ_neg _ _ _ _ _ hno, fixed_point_step]
    rfl
  · show powerIterRec [[(1 : ℝ), 0], [0, 0]] [0, 0] 0 (1 + 1) (vectorNormalize [1, 0]) = [1, 0]
    rw [normalize_one_zero, powerIterRec_succ_neg _ _ _ _ _ hno, fixed_point_step]
    show powerIterRec [[(1 : ℝ), 0], [0, 0]] [0, 0] 0 (0 + 1) [1, 0] = [1, 0]
    rw [powerIterRec_succ_neg _ _ _ _ _ hno, fixed_point_step]
    rfl

/-! ### Claim C1: the two-node graph oscillates instead of converging -/

theorem not_sqrt_lt_centi {E : ℝ} (h : (0.01 : ℝ) ^ 2 ≤ E) : ¬ Real.sqrt E < 0.01 := by
  rw [Real.sqrt_lt' (by norm_num : (0 : ℝ) < 0.01)]
  exact not_lt.mpr h

theorem sqrt_lt_centi {E : ℝ} (h : E < (0.01 : ℝ) ^ 2) : Real.sqrt E < 0.01 :=
  (Real.sqrt_lt' (by norm_num : (0 : ℝ) < 0.01)).mpr h

theorem twonode_step (x y : ℝ) (hx : 0 < x) (hy : 0 < y) (hu : x * x + y * y = 1) :
    pstep twoNodeA [0, 0] [x, y] = [y, x] := by
  have hmv : matrixVectorMultiply twoNodeA [x, y] = [y, x] := by
    simp only [twoNodeA]
    rw [mvMul_pair]
    norm_num
  have hab : addBias [(0 : ℝ), 0] 0 [y, x] = [y, x] := by
    rw [addBias_pair]; norm_num
  have hmu : dotProduct [y, x] [x, y] = y * x + x * y := dotProduct_pair y x x y
  have hpos : (0 : ℝ) < y * x + x * y := by nlinarith [mul_pos hx hy]
  rw [pstep, pstepArg_eq, hmv, hab, hmu, Real.sign_of_pos hpos]
  have hmap : List.map (fun value => (1 : ℝ) * value) [y, x] = [y, x] := by norm_num
  rw [hmap, vectorNormalize_pair, show y * y + x * x = 1 by linarith, Real.sqrt_one]
  norm_num

theorem twonode_nostop (x y : ℝ) (hx : 0 < x) (hy : 0 < y) (hu : x * x + y * y = 1)
    (hgap : (0.01 : ℝ) ^ 2 ≤ 2 * (x - y) ^ 2) :
    ¬ pdelta twoNodeA [0, 0] [x, y] < 0.01 := by
  rw [pdelta, twonode_step x y hx hy hu, vectorSub_pair, dotProduct_pair]
  apply not_sqrt_lt_centi
  nlinarith [hgap]

theorem twonode_loop (x y : ℝ) (hx : 0 < x) (hy : 0 < y) (hu : x * x + y * y = 1)
    (hgap : (0.01 : ℝ) ^ 2 ≤ 2 * (x - y) ^ 2) :
    ∀ k, powerIterRec twoNodeA [0, 0] 0.01 (2 * k) [x, y] = [x, y] := by
  intro k
  induction k with
  | zero => rfl
  | succ m ih =>
    have hu2 : y * y + x * x = 1 := by linarith
    have hgap2 : (0.01 : ℝ) ^ 2 ≤ 2 * (y - x) ^ 2 := by nlinarith [hgap]
    have h1 := twonode_nostop x y hx hy hu hgap
    have h2 := twonode_nostop y x hy hx hu2 hgap2
    have e1 : 2 * (m + 1) = (2 * m + 1) + 1 := by ring
    rw [e1, powerIterRec_succ_neg _ _ _ _ _ h1, twonode_step x y hx hy hu,
      powerIterRec_succ_neg _ _ _ _ _ h2, twonode_step y x hy hx hu2, ih]

/-- Counterexample to claim C1: for `A = [[0,1],[1,0]]`, `b = [0,0]`,
`maxIterations = 1000`, `tolerance = 0.01` and the unit-norm initial draw
`[3/5, 4/5]`, the iterates just swap coordinates each step, so the run
exhausts its 1000 iterations and returns `[3/5, 4/5]` — whose entries are not
within `0.05` of `1/√2`, under either global sign. -/
theorem twonode_result_off_diagonal :
    powerIteration twoNodeA [0, 0] 1000 0.01 [3 / 5, 4 / 5] = [3 / 5, 4 / 5] ∧
    ¬ nearDiagUpToSign [3 / 5, 4 / 5] := by
  constructor
  · rw [powerIteration]
    have hnorm : vectorNormalize [(3 : ℝ) / 5, 4 / 5] = [3 / 5, 4 / 5] := by
      rw [vectorNormalize_pair,
        show (3 : ℝ) / 5 * (3 / 5) + 4 / 5 * (4 / 5) = 1 by norm_num, Real.sqrt_one]
      norm_num
    rw [hnorm, show (1000 : ℕ) = 2 * 500 by norm_num]
    exact twonode_loop (3 / 5) (4 / 5) (by norm_num) (by norm_num) (by norm_num)
      (by norm_num) 500
  · have hsqrt_pos : (0 : ℝ) < Real.sqrt 2 := Real.sqrt_pos.mpr (by norm_num)
    have hs2 : Real.sqrt 2 < 1.415 :=
      (Real.sqrt_lt' (by norm_num)).mpr (by norm_num)
    have hs1 : (1.414 : ℝ) ≤ Real.sqrt 2 :=
      (Real.le_sqrt' (by norm_num)).mpr (by norm_num)
    have hlo : (0.70 : ℝ) < 1 / Real.sqrt 2 := by
      rw [lt_div_iff hsqrt_pos]
      nlinarith [hs2]
    have hhi : 1 / Real.sqrt 2 < (0.71 : ℝ) := by
      rw [div_lt_iff hsqrt_pos]
      nlinarith [hs1]
    show ¬ ((|(3 : ℝ) / 5 - 1 / Real.sqrt 2| ≤ 0.05 ∧
        |(4 : ℝ) / 5 - 1 / Real.sqrt 2| ≤ 0.05) ∨
      (|(3 : ℝ) / 5 + 1 / Real.sqrt 2| ≤ 0.05 ∧
        |(4 : ℝ) / 5 + 1 / Real.sqrt 2| ≤ 0.05))
    intro h
    rcases h with ⟨h0, h1⟩ | ⟨h0, h1⟩
    · rw [abs_le] at h0
      linarith [h0.1, hlo]
    · rw [abs_le] at h0
      linarith [h0.2, hlo]

/-- Amended claim C1: on the two-node graph the loop converges to
`[1/√2, 1/√2]` only from initial draws already on the diagonal — for any draw
`[x, x]` with `x > 0`, `powerIteration` (A = [[0,1],[1,0]], b = [0,0],
maxIterations = 1000, tolerance = 0.01) returns exactly `[1/√2, 1/√2]`,
stopping at the first iteration; a generic unit-norm initial draw merely has
its coordinates swapped each iteration and need not approach `[0.7071, 0.7071]`. -/
theorem twonode_diagonal_start (x : ℝ) (hx : 0 < x) :
    powerIteration twoNodeA [0, 0] 1000 0.01 [x, x] =
      [1 / Real.sqrt 2, 1 / Real.sqrt 2] := by
  have h2 : Real.sqrt 2 * Real.sqrt 2 = 2 := Real.mul_self_sqrt (by norm_num)
  have hsqrt_pos : (0 : ℝ) < Real.sqrt 2 := Real.sqrt_pos.mpr (by norm_num)
  have hhalf : (1 / Real.sqrt 2) * (1 / Real.sqrt 2) = 1 / 2 := by
    rw [div_mul_div_comm, one_mul, h2]
  have hnorm : vectorNormalize [x, x] = [1 / Real.sqrt 2, 1 / Real.sqrt 2] := by
    rw [vectorNormalize_pair, show x * x + x * x = 2 * x ^ 2 by ring,
      Real.sqrt_mul (by norm_num : (0 : ℝ) ≤ 2), Real.sqrt_sq hx.le]
    have he : x / (Real.sqrt 2 * x) = 1 / Real.sqrt 2 := by
      rw [mul_comm, ← div_div, div_self hx.ne']
    rw [he]
  have hmv : matrixVectorMultiply twoNodeA [1 / Real.sqrt 2, 1 / Real.sqrt 2] =
      [1 / Real.sqrt 2, 1 / Real.sqrt 2] := by
    simp only [twoNodeA]
    rw [mvMul_pair]
    norm_num
  have hab : addBias [(0 : ℝ), 0] 0 [1 / Real.sqrt 2, 1 / Real.sqrt 2] =
      [1 / Real.sqrt 2, 1 / Real.sqrt 2] := by
    rw [addBias_pair]; norm_num
  have hmu : dotProduct [1 / Real.sqrt 2, 1 / Real.sqrt 2]
      [1 / Real.sqrt 2, 1 / Real.sqrt 2] = 1 := by
    rw [dotProduct_pair, hhalf]; norm_num
  have hstep : pstep twoNodeA [0, 0] [1 / Real.sqrt 2, 1 / Real.sqrt 2] =
      [1 / Real.sqrt 2, 1 / Real.sqrt 2] := by
    rw [pstep, pstepArg_eq, hmv, hab, hmu, Real.sign_of_pos (by norm_num : (0 : ℝ) < 1)]
    have hmap : List.map (fun value => (1 : ℝ) * value)
        [1 / Real.sqrt 2, 1 / Real.sqrt 2] = [1 / Real.sqrt 2, 1 / Real.sqrt 2] := by
      norm_num
    rw [hmap, vectorNormalize_pair, hhalf, show (1 : ℝ) / 2 + 1 / 2 = 1 by norm_num,
      Real.sqrt_one]
    norm_num
  have hdel : pdelta twoNodeA [0, 0] [1 / Real.sqrt 2, 1 / Real.sqrt 2] < 0.01 := by
    rw [pdelta, hstep, vectorSub_pair,
      show (1 / Real.sqrt 2 - 1 / Real.sqrt 2 : ℝ) = 0 by ring, dotProduct_pair,
      show ((0 : ℝ) * 0 + 0 * 0) = 0 by norm_num, Real.sqrt_zero]
    norm_num
  rw [powerIteration, hnorm, show (1000 : ℕ) = 999 + 1 by norm_num,
    powerIterRec_succ_pos _ _ _ _ _ hdel, hstep]

/-- Witness for the amended claim C1 at the draw `[1, 1]`. -/
theorem twonode_diagonal_start_witness :
    (0 : ℝ) < 1 ∧ powerIteration twoNodeA [0, 0] 1000 0.01 [1, 1] =
      [1 / Real.sqrt 2, 1 / Real.sqrt 2] :=
  ⟨by norm_num, twonode_diagonal_start 1 (by norm_num)⟩

/-! ### Claim C7: the star graph with and without doping -/

theorem star_undoped_step (c l : ℝ) (hc : 0 < c) (hl : 0 < l) :
    pstep starA bZero5 [c, l, l, l, l] =
      [4 * l / Real.sqrt (16 * l ^ 2 + 4 * c ^ 2), c / Real.sqrt (16 * l ^ 2 + 4 * c ^ 2),
       c / Real.sqrt (16 * l ^ 2 + 4 * c ^ 2), c / Real.sqrt (16 * l ^ 2 + 4 * c ^ 2),
       c / Real.sqrt (16 * l ^ 2 + 4 * c ^ 2)] := by
  have hmv : matrixVectorMultiply starA [c, l, l, l, l] = [l + l + l + l, c, c, c, c] :=
    mvMul_star c l l l l
  have hab : addBias bZero5 0 [l + l + l + l, c, c, c, c] = [l + l + l + l, c, c, c, c] := by
    show addBias [(0 : ℝ), 0, 0, 0, 0] 0 _ = _
    rw [addBias_five]; norm_num
  have hmupos : (0 : ℝ) < (l + l + l + l) * c + c * l + c * l + c * l + c * l := by
    nlinarith [mul_pos hl hc, mul_pos hc hl]
  rw [pstep, pstepArg_eq]
  simp only [hmv, hab, dotProduct_five]
  rw [Real.sign_of_pos hmupos]
  simp only [one_mul, List.map_cons, List.map_nil]
  rw [vectorNormalize_five,
    show ((l + l + l + l) * (l + l + l + l) + c * c + c * c + c * c + c * c : ℝ) =
      16 * l ^ 2 + 4 * c ^ 2 by ring,
    show (l + l + l + l : ℝ) = 4 * l by ring]

theorem star_delta_bound (c l s : ℝ) (hspos : 0 < s) (hssq : s ^ 2 = 16 * l ^ 2 + 4 * c ^ 2)
    (hu : c ^ 2 + 4 * l ^ 2 = 1) (hl : 0 < l) (hc : 0 < c)
    (hno : (16 * l * c) ^ 2 ≤ (1.9999 : ℝ) ^ 2 * (16 * l ^ 2 + 4 * c ^ 2)) :
    (0.01 : ℝ) ^ 2 ≤ (4 * l / s - c) * (4 * l / s - c) + (c / s - l) * (c / s - l) +
      (c / s - l) * (c / s - l) + (c / s - l) * (c / s - l) + (c / s - l) * (c / s - l) := by
  have hs0 : s ≠ 0 := hspos.ne'
  have hmono : 16 * l * c * s ≤ 1.9999 * (16 * l ^ 2 + 4 * c ^ 2) := by
    nlinarith [hno, hssq, hspos.le, mul_pos hl hc, sq_nonneg (16 * l * c - 1.9999 * s)]
  have h1 : s * (4 * l / s - c) = 4 * l - c * s := by field_simp; ring
  have h2 : s * (c / s - l) = c - l * s := by field_simp; ring
  have hE2 : s ^ 2 * ((4 * l / s - c) * (4 * l / s - c) + (c / s - l) * (c / s - l) +
      (c / s - l) * (c / s - l) + (c / s - l) * (c / s - l) + (c / s - l) * (c / s - l)) =
      2 * s ^ 2 - 16 * l * c * s := by
    have hexp : s ^ 2 * ((4 * l / s - c) * (4 * l / s - c) + (c / s - l) * (c / s - l) +
        (c / s - l) * (c / s - l) + (c / s - l) * (c / s - l) + (c / s - l) * (c / s - l)) =
        (s * (4 * l / s - c)) * (s * (4 * l / s - c)) + (s * (c / s - l)) * (s * (c / s - l)) +
        (s * (c / s - l)) * (s * (c / s - l)) + (s * (c / s - l)) * (s * (c / s - l)) +
        (s * (c / s - l)) * (s * (c / s - l)) := by ring
    rw [hexp, h1, h2]
    linear_combination (-1 : ℝ) * hssq + s ^ 2 * hu
  nlinarith [hE2, hmono, hssq, mul_pos hspos hspos]

theorem star_undoped_nostop (c l : ℝ) (hc : 0 < c) (hl : 0 < l)
    (hu : c ^ 2 + 4 * l ^ 2 = 1)
    (hno : (16 * l * c) ^ 2 ≤ (1.9999 : ℝ) ^ 2 * (16 * l ^ 2 + 4 * c ^ 2)) :
    ¬ pdelta starA bZero5 [c, l, l, l, l] < 0.01 := by
  rw [pdelta, star_undoped_step c l hc hl, vectorSub_five, dotProduct_five]
  apply not_sqrt_lt_centi
  have hq1pos : (0 : ℝ) < 16 * l ^ 2 + 4 * c ^ 2 := by positivity
  exact star_delta_bound c l (Real.sqrt (16 * l ^ 2 + 4 * c ^ 2))
    (Real.sqrt_pos.mpr hq1pos) (Real.sq_sqrt hq1pos.le) hu hl hc hno

theorem star_undoped_step_back (c l : ℝ) (hc : 0 < c) (hl : 0 < l)
    (hu : c ^ 2 + 4 * l ^ 2 = 1) :
    pstep starA bZero5 [4 * l / Real.sqrt (16 * l ^ 2 + 4 * c ^ 2),
      c / Real.sqrt (16 * l ^ 2 + 4 * c ^ 2), c / Real.sqrt (16 * l ^ 2 + 4 * c ^ 2),
      c / Real.sqrt (16 * l ^ 2 + 4 * c ^ 2), c / Real.sqrt (16 * l ^ 2 + 4 * c ^ 2)] =
      [c, l, l, l, l] := by
  have hq1pos : (0 : ℝ) < 16 * l ^ 2 + 4 * c ^ 2 := by positivity
  obtain ⟨s, hsdef⟩ : ∃ s, Real.sqrt (16 * l ^ 2 + 4 * c ^ 2) = s := ⟨_, rfl⟩
  have hspos : 0 < s := hsdef ▸ Real.sqrt_pos.mpr hq1pos
  have hssq : s ^ 2 = 16 * l ^ 2 + 4 * c ^ 2 := by rw [← hsdef]; exact Real.sq_sqrt hq1pos.le
  have hs0 : s ≠ 0 := hspos.ne'
  rw [hsdef]
  have hmv : matrixVectorMultiply starA [4 * l / s, c / s, c / s, c / s, c / s] =
      [c / s + c / s + c / s + c / s, 4 * l / s, 4 * l / s, 4 * l / s, 4 * l / s] :=
    mvMul_star (4 * l / s) (c / s) (c / s) (c / s) (c / s)
  have hab : addBias bZero5 0 [c / s + c / s + c / s + c / s, 4 * l / s, 4 * l / s,
      4 * l / s, 4 * l / s] = [c / s + c / s + c / s + c / s, 4 * l / s, 4 * l / s,
      4 * l / s, 4 * l / s] := by
    show addBias [(0 : ℝ), 0, 0, 0, 0] 0 _ = _
    rw [addBias_five]; norm_num
  have hmuval : (c / s + c / s + c / s + c / s) * (4 * l / s) + 4 * l / s * (c / s) +
      4 * l / s * (c / s) + 4 * l / s * (c / s) + 4 * l / s * (c / s) =
      32 * l * c / s ^ 2 := by
    field_simp
    ring
  have hmupos : (0 : ℝ) < (c / s + c / s + c / s + c / s) * (4 * l / s) +
      4 * l / s * (c / s) + 4 * l / s * (c / s) + 4 * l / s * (c / s) +
      4 * l / s * (c / s) := by
    rw [hmuval]
    exact div_pos (by nlinarith [mul_pos hl hc]) (pow_pos hspos 2)
  rw [pstep, pstepArg_eq]
  simp only [hmv, hab, dotProduct_five]
  rw [Real.sign_of_pos hmupos]
  simp only [one_mul, List.map_cons, List.map_nil]
  rw [vectorNormalize_five]
  have hargeq : ((c / s + c / s + c / s + c / s) * (c / s + c / s + c / s + c / s) +
      4 * l / s * (4 * l / s) + 4 * l / s * (4 * l / s) + 4 * l / s * (4 * l / s) +
      4 * l / s * (4 * l / s) : ℝ) = 16 / s ^ 2 := by
    field_simp
    linear_combination (16 * s ^ 2) * hu
  rw [hargeq]
  have hsqrt16 : Real.sqrt (16 / s ^ 2) = 4 / s := by
    rw [show (16 / s ^ 2 : ℝ) = (4 / s) ^ 2 by ring]
    exact Real.sqrt_sq (le_of_lt (div_pos (by norm_num) hspos))
  rw [hsqrt16]
  have e0 : (c / s + c / s + c / s + c / s) / (4 / s) = c := by
    field_simp
    ring
  have e1 : (4 * l / s) / (4 / s) = l := by
    field_simp
  rw [e0, e1]

theorem star_undoped_nostop_back (c l : ℝ) (hc : 0 < c) (hl : 0 < l)
    (hu : c ^ 2 + 4 * l ^ 2 = 1)
    (hno : (16 * l * c) ^ 2 ≤ (1.9999 : ℝ) ^ 2 * (16 * l ^ 2 + 4 * c ^ 2)) :
    ¬ pdelta starA bZero5 [4 * l / Real.sqrt (16 * l ^ 2 + 4 * c ^ 2),
      c / Real.sqrt (16 * l ^ 2 + 4 * c ^ 2), c / Real.sqrt (16 * l ^ 2 + 4 * c ^ 2),
      c / Real.sqrt (16 * l ^ 2 + 4 * c ^ 2), c / Real.sqrt (16 * l ^ 2 + 4 * c ^ 2)] < 0.01 := by
  rw [pdelta, star_undoped_step_back c l hc hl hu, vectorSub_five, dotProduct_five]
  apply not_sqrt_lt_centi
  have hq1pos : (0 : ℝ) < 16 * l ^ 2 + 4 * c ^ 2 := by positivity
  have hbound := star_delta_bound c l (Real.sqrt (16 * l ^ 2 + 4 * c ^ 2))
    (Real.sqrt_pos.mpr hq1pos) (Real.sq_sqrt hq1pos.le) hu hl hc hno
  nlinarith [hbound]

theorem star_undoped_loop (c l : ℝ) (hc : 0 < c) (hl : 0 < l)
    (hu : c ^ 2 + 4 * l ^ 2 = 1)
    (hno : (16 * l * c) ^ 2 ≤ (1.9999 : ℝ) ^ 2 * (16 * l ^ 2 + 4 * c ^ 2)) :
    ∀ k, powerIterRec starA bZero5 0.01 (2 * k) [c, l, l, l, l] = [c, l, l, l, l] := by
  intro k
  induction k with
  | zero => rfl
  | succ m ih =>
    have h1 := star_undoped_nostop c l hc hl hu hno
    have h2 := star_undoped_nostop_back c l hc hl hu hno
    have e1 : 2 * (m + 1) = (2 * m + 1) + 1 := by ring
    rw [e1, powerIterRec_succ_neg _ _ _ _ _ h1, star_undoped_step c l hc hl,
      powerIterRec_succ_neg _ _ _ _ _ h2, star_undoped_step_back c l hc hl hu, ih]

theorem star_doped_step (c l : ℝ) (n : ℕ) (hc : 0 < c) (hl : 0 < l)
    (hu : c ^ 2 + 4 * l ^ 2 = 1)
    (hstop : (1.9999 : ℝ) ^ 2 * ((4 * l + 1) ^ 2 + 4 * c ^ 2) <
      (2 * (c * (8 * l + 1))) ^ 2) :
    powerIterRec starA bDope 0.01 (n + 1) [c, l, l, l, l] =
      [(4 * l + 1) / Real.sqrt ((4 * l + 1) ^ 2 + 4 * c ^ 2),
       c / Real.sqrt ((4 * l + 1) ^ 2 + 4 * c ^ 2),
       c / Real.sqrt ((4 * l + 1) ^ 2 + 4 * c ^ 2),
       c / Real.sqrt ((4 * l + 1) ^ 2 + 4 * c ^ 2),
       c / Real.sqrt ((4 * l + 1) ^ 2 + 4 * c ^ 2)] := by
  have hmv : matrixVectorMultiply starA [c, l, l, l, l] = [l + l + l + l, c, c, c, c] :=
    mvMul_star c l l l l
  have hab : addBias bDope 0 [l + l + l + l, c, c, c, c] = [4 * l + 1, c, c, c, c] := by
    show addBias [(1 : ℝ), 0, 0, 0, 0] 0 _ = _
    rw [addBias_five]
    norm_num
    ring
  have hmupos : (0 : ℝ) < (4 * l + 1) * c + c * l + c * l + c * l + c * l := by
    nlinarith [mul_pos hl hc, hc]
  have hstep : pstep starA bDope [c, l, l, l, l] =
      [(4 * l + 1) / Real.sqrt ((4 * l + 1) ^ 2 + 4 * c ^ 2),
       c / Real.sqrt ((4 * l + 1) ^ 2 + 4 * c ^ 2),
       c / Real.sqrt ((4 * l + 1) ^ 2 + 4 * c ^ 2),
       c / Real.sqrt ((4 * l + 1) ^ 2 + 4 * c ^ 2),
       c / Real.sqrt ((4 * l + 1) ^ 2 + 4 * c ^ 2)] := by
    rw [pstep, pstepArg_eq]
    simp only [hmv, hab, dotProduct_five]
    rw [Real.sign_of_pos hmupos]
    simp only [one_mul, List.map_cons, List.map_nil]
    rw [vectorNormalize_five,
      show ((4 * l + 1) * (4 * l + 1) + c * c + c * c + c * c + c * c : ℝ) =
        (4 * l + 1) ^ 2 + 4 * c ^ 2 by ring]
  have hqdpos : (0 : ℝ) < (4 * l + 1) ^ 2 + 4 * c ^ 2 := by positivity
  have hdel : pdelta starA bDope [c, l, l, l, l] < 0.01 := by
    rw [pdelta, hstep, vectorSub_five, dotProduct_five]
    apply sqrt_lt_centi
    obtain ⟨s, hsdef⟩ : ∃ s, Real.sqrt ((4 * l + 1) ^ 2 + 4 * c ^ 2) = s := ⟨_, rfl⟩
    rw [hsdef]
    have hspos : 0 < s := hsdef ▸ Real.sqrt_pos.mpr hqdpos
    have hssq : s ^ 2 = (4 * l + 1) ^ 2 + 4 * c ^ 2 := by
      rw [← hsdef]; exact Real.sq_sqrt hqdpos.le
    have hs0 : s ≠ 0 := hspos.ne'
    have hmono : 1.9999 * s < 2 * (c * (8 * l + 1)) := by
      have hmu2 : (0 : ℝ) < 2 * (c * (8 * l + 1)) := by nlinarith [hc, hl]
      nlinarith [hstop, hssq, hspos, hmu2, sq_nonneg (2 * (c * (8 * l + 1)) - 1.9999 * s)]
    have h1 : s * ((4 * l + 1) / s - c) = (4 * l + 1) - c * s := by field_simp; ring
    have h2 : s * (c / s - l) = c - l * s := by field_simp; ring
    have hE2 : s ^ 2 * (((4 * l + 1) / s - c) * ((4 * l + 1) / s - c) +
        (c / s - l) * (c / s - l) + (c / s - l) * (c / s - l) +
        (c / s - l) * (c / s - l) + (c / s - l) * (c / s - l)) =
        2 * s ^ 2 - 2 * (c * (8 * l + 1)) * s := by
      have hexp : s ^ 2 * (((4 * l + 1) / s - c) * ((4 * l + 1) / s - c) +
          (c / s - l) * (c / s - l) + (c / s - l) * (c / s - l) +
          (c / s - l) * (c / s - l) + (c / s - l) * (c / s - l)) =
          (s * ((4 * l + 1) / s - c)) * (s * ((4 * l + 1) / s - c)) +
          (s * (c / s - l)) * (s * (c / s - l)) + (s * (c / s - l)) * (s * (c / s - l)) +
          (s * (c / s - l)) * (s * (c / s - l)) + (s * (c / s - l)) * (s * (c / s - l)) := by
        ring
      rw [hexp, h1, h2]
      linear_combination (-1 : ℝ) * hssq + s ^ 2 * hu
    nlinarith [hE2, hmono, mul_pos hspos hspos, hspos]
  rw [powerIterRec_succ_pos _ _ _ _ _ hdel, hstep]

/-- Counterexample to claim C7: on the 5-node star graph with
`maxIterations = 1000`, `tolerance = 0.01` and the shared unit-norm initial
draw `[93093, 34238, 34238, 34238, 34238] / 115565` (a rational point of the
unit sphere close to the doped fixed point, with center weight slightly above
it), the doped run (`b = [1,0,0,0,0]`) stops at its first iteration while the
undoped run (`b = [0,0,0,0,0]`) oscillates with period 2 for all 1000
iterations — and the center magnitude of the doped result is *strictly
smaller* than that of the undoped result, not strictly larger. -/
theorem star_doping_not_always_increasing :
    |(powerIteration starA bDope 1000 0.01
        [93093 / 115565, 34238 / 115565, 34238 / 115565, 34238 / 115565,
          34238 / 115565]).getD 0 0| <
      |(powerIteration starA bZero5 1000 0.01
        [93093 / 115565, 34238 / 115565, 34238 / 115565, 34238 / 115565,
          34238 / 115565]).getD 0 0| := by
  have hnorm : vectorNormalize [(93093 : ℝ) / 115565, 34238 / 115565, 34238 / 115565,
      34238 / 115565, 34238 / 115565] = [93093 / 115565, 34238 / 115565, 34238 / 115565,
      34238 / 115565, 34238 / 115565] := by
    rw [vectorNormalize_five,
      show ((93093 : ℝ) / 115565 * (93093 / 115565) + 34238 / 115565 * (34238 / 115565) +
        34238 / 115565 * (34238 / 115565) + 34238 / 115565 * (34238 / 115565) +
        34238 / 115565 * (34238 / 115565)) = 1 by norm_num, Real.sqrt_one]
    norm_num
  have hundoped : powerIteration starA bZero5 1000 0.01
      [93093 / 115565, 34238 / 115565, 34238 / 115565, 34238 / 115565, 34238 / 115565] =
      [(93093 : ℝ) / 115565, 34238 / 115565, 34238 / 115565, 34238 / 115565,
        34238 / 115565] := by
    rw [powerIteration, hnorm, show (1000 : ℕ) = 2 * 500 by norm_num]
    exact star_undoped_loop (93093 / 115565) (34238 / 115565) (by norm_num) (by norm_num)
      (by norm_num) (by norm_num) 500
  have hdoped : powerIteration starA bDope 1000 0.01
      [93093 / 115565, 34238 / 115565, 34238 / 115565, 34238 / 115565, 34238 / 115565] =
      [(4 * ((34238 : ℝ) / 115565) + 1) /
        Real.sqrt ((4 * ((34238 : ℝ) / 115565) + 1) ^ 2 + 4 * ((93093 : ℝ) / 115565) ^ 2),
       (93093 : ℝ) / 115565 /
        Real.sqrt ((4 * ((34238 : ℝ) / 115565) + 1) ^ 2 + 4 * ((93093 : ℝ) / 115565) ^ 2),
       (93093 : ℝ) / 115565 /
        Real.sqrt ((4 * ((34238 : ℝ) / 115565) + 1) ^ 2 + 4 * ((93093 : ℝ) / 115565) ^ 2),
       (93093 : ℝ) / 115565 /
        Real.sqrt ((4 * ((34238 : ℝ) / 115565) + 1) ^ 2 + 4 * ((93093 : ℝ) / 115565) ^ 2),
       (93093 : ℝ) / 115565 /
        Real.sqrt ((4 * ((34238 : ℝ) / 115565) + 1) ^ 2 + 4 * ((93093 : ℝ) / 115565) ^ 2)] := by
    rw [powerIteration, hnorm, show (1000 : ℕ) = 999 + 1 by norm_num]
    exact star_doped_step (93093 / 115565) (34238 / 115565) 999 (by norm_num) (by norm_num)
      (by norm_num) (by norm_num)
  rw [hundoped, hdoped]
  simp only [List.getD_cons_zero]
  have hqdpos : (0 : ℝ) <
      (4 * ((34238 : ℝ) / 115565) + 1) ^ 2 + 4 * ((93093 : ℝ) / 115565) ^ 2 := by positivity
  have hspos : (0 : ℝ) <
      Real.sqrt ((4 * ((34238 : ℝ) / 115565) + 1) ^ 2 + 4 * ((93093 : ℝ) / 115565) ^ 2) :=
    Real.sqrt_pos.mpr hqdpos
  have hssq : (Real.sqrt ((4 * ((34238 : ℝ) / 115565) + 1) ^ 2 +
      4 * ((93093 : ℝ) / 115565) ^ 2)) ^ 2 =
      (4 * ((34238 : ℝ) / 115565) + 1) ^ 2 + 4 * ((93093 : ℝ) / 115565) ^ 2 :=
    Real.sq_sqrt hqdpos.le
  rw [abs_of_pos (div_pos (by norm_num) hspos),
    abs_of_pos (by norm_num : (0 : ℝ) < 93093 / 115565),
    div_lt_iff hspos]
  have hsq : (4 * ((34238 : ℝ) / 115565) + 1) ^ 2 <
      ((93093 : ℝ) / 115565) ^ 2 *
        ((4 * ((34238 : ℝ) / 115565) + 1) ^ 2 + 4 * ((93093 : ℝ) / 115565) ^ 2) := by
    norm_num
  nlinarith [hsq, hssq, hspos,
    mul_pos (by norm_num : (0 : ℝ) < 93093 / 115565) hspos]

/-- Amended claim C7: the doping increase is not universal in the shared
initial draw (see the counterexample), but it does hold for some draws: for
the star graph with `maxIterations = 1000`, `tolerance = 0.01` and the shared
unit-norm initial draw `[4371, 1610, 1610, 1610, 1610] / 5429` (a rational
point of the unit sphere close to the doped fixed point, with center weight
slightly below it), the center magnitude returned with `b = [1,0,0,0,0]`
strictly exceeds the center magnitude returned with `b = [0,0,0,0,0]`. -/
theorem star_doping_increases_for_some_draw :
    |(powerIteration starA bZero5 1000 0.01
        [4371 / 5429, 1610 / 5429, 1610 / 5429, 1610 / 5429, 1610 / 5429]).getD 0 0| <
      |(powerIteration starA bDope 1000 0.01
        [4371 / 5429, 1610 / 5429, 1610 / 5429, 1610 / 5429, 1610 / 5429]).getD 0 0| := by
  have hnorm : vectorNormalize [(4371 : ℝ) / 5429, 1610 / 5429, 1610 / 5429,
      1610 / 5429, 1610 / 5429] = [4371 / 5429, 1610 / 5429, 1610 / 5429,
      1610 / 5429, 1610 / 5429] := by
    rw [vectorNormalize_five,
      show ((4371 : ℝ) / 5429 * (4371 / 5429) + 1610 / 5429 * (1610 / 5429) +
        1610 / 5429 * (1610 / 5429) + 1610 / 5429 * (1610 / 5429) +
        1610 / 5429 * (1610 / 5429)) = 1 by norm_num, Real.sqrt_one]
    norm_num
  have hundoped : powerIteration starA bZero5 1000 0.01
      [4371 / 5429, 1610 / 5429, 1610 / 5429, 1610 / 5429, 1610 / 5429] =
      [(4371 : ℝ) / 5429, 1610 / 5429, 1610 / 5429, 1610 / 5429, 1610 / 5429] := by
    rw [powerIteration, hnorm, show (1000 : ℕ) = 2 * 500 by norm_num]
    exact star_undoped_loop (4371 / 5429) (1610 / 5429) (by norm_num) (by norm_num)
      (by norm_num) (by norm_num) 500
  have hdoped : powerIteration starA bDope 1000 0.01
      [4371 / 5429, 1610 / 5429, 1610 / 5429, 1610 / 5429, 1610 / 5429] =
      [(4 * ((1610 : ℝ) / 5429) + 1) /
        Real.sqrt ((4 * ((1610 : ℝ) / 5429) + 1) ^ 2 + 4 * ((4371 : ℝ) / 5429) ^ 2),
       (4371 : ℝ) / 5429 /
        Real.sqrt ((4 * ((1610 : ℝ) / 5429) + 1) ^ 2 + 4 * ((4371 : ℝ) / 5429) ^ 2),
       (4371 : ℝ) / 5429 /
        Real.sqrt ((4 * ((1610 : ℝ) / 5429) + 1) ^ 2 + 4 * ((4371 : ℝ) / 5429) ^ 2),
       (4371 : ℝ) / 5429 /
        Real.sqrt ((4 * ((1610 : ℝ) / 5429) + 1) ^ 2 + 4 * ((4371 : ℝ) / 5429) ^ 2),
       (4371 : ℝ) / 5429 /
        Real.sqrt ((4 * ((1610 : ℝ) / 5429) + 1) ^ 2 + 4 * ((4371 : ℝ) / 5429) ^ 2)] := by
    rw [powerIteration, hnorm, show (1000 : ℕ) = 999 + 1 by norm_num]
    exact star_doped_step (4371 / 5429) (1610 / 5429) 999 (by norm_num) (by norm_num)
      (by norm_num) (by norm_num)
  rw [hundoped, hdoped]
  simp only [List.getD_cons_zero]
  have hqdpos : (0 : ℝ) <
      (4 * ((1610 : ℝ) / 5429) + 1) ^ 2 + 4 * ((4371 : ℝ) / 5429) ^ 2 := by positivity
  have hspos : (0 : ℝ) <
      Real.sqrt ((4 * ((1610 : ℝ) / 5429) + 1) ^ 2 + 4 * ((4371 : ℝ) / 5429) ^ 2) :=
    Real.sqrt_pos.mpr hqdpos
  have hssq : (Real.sqrt ((4 * ((1610 : ℝ) / 5429) + 1) ^ 2 +
      4 * ((4371 : ℝ) / 5429) ^ 2)) ^ 2 =
      (4 * ((1610 : ℝ) / 5429) + 1) ^ 2 + 4 * ((4371 : ℝ) / 5429) ^ 2 :=
    Real.sq_sqrt hqdpos.le
  rw [abs_of_pos (div_pos (by norm_num) hspos),
    abs_of_pos (by norm_num : (0 : ℝ) < 4371 / 5429),
    lt_div_iff hspos]
  have hsq : ((4371 : ℝ) / 5429) ^ 2 *
      ((4 * ((1610 : ℝ) / 5429) + 1) ^ 2 + 4 * ((4371 : ℝ) / 5429) ^ 2) <
      (4 * ((1610 : ℝ) / 5429) + 1) ^ 2 := by
    norm_num
  nlinarith [hsq, hssq, hspos,
    mul_pos (by norm_num : (0 : ℝ) < 4371 / 5429) hspos]
